import Mathlib

/-!
Verification of the feature-engineering repository (feature_engineering.py, utils.py).

Shallow embedding conventions:
* A pandas DataFrame of tracking records is a `List Row`; numeric cells are
  modelled exactly as rationals (`ℚ`), missing values (`NaN` / `pd.NA`) as
  `Option ℚ` where a column can hold them.
* numpy's transcendental float routines (`np.pi`, `np.cos`, `np.sin`,
  `np.arctan2`, `np.sqrt`, `np.degrees`) are abstracted as parameters
  (`FloatPrims`): every claim under check is independent of their values.
* Python's `%` on numbers (sign follows the divisor) is `pymod`.
* `invert_direction`'s column accesses (utils.py lines 106-123) are also
  modelled at column level (`DFrame`) so that the missing-column (KeyError)
  behaviour is visible; `Except` models the raised error.
-/

namespace BDB

/-- Tracking Record (spec §3): one row of the merged dataset.  Integer ids form
the composite key; kinematic and positional cells are exact rationals;
`play_direction` is the string column read by `invert_direction`. -/
structure Row where
  game_id : ℤ
  play_id : ℤ
  nfl_id : ℤ
  frame_id : ℤ
  s : ℚ
  a : ℚ
  o : ℚ
  dir : ℚ
  x_input : ℚ
  y_input : ℚ
  player_height : ℚ
  player_weight : ℚ
  absolute_yardline_number : ℚ
  ball_land_x : ℚ
  ball_land_y : ℚ
  x_target : ℚ
  y_target : ℚ
  play_direction : String
  deriving DecidableEq, Repr

/-- feature_engineering.py lines 45-49: `same_sequence` compares a row's
(game_id, play_id, nfl_id) with the shifted (previous) row's. -/
def sameKey (r r' : Row) : Bool :=
  r.game_id == r'.game_id && r.play_id == r'.play_id && r.nfl_id == r'.nfl_id

/-- Tail of `df[c].diff() / 0.1` (lines 43 and 58): difference of `proj` between
each row and its predecessor `prev`, divided by the 0.1 s sampling interval. -/
def diffAux (proj : Row → ℚ) : Row → List Row → List (Option ℚ)
  | _, [] => []
  | prev, r :: rs => some ((proj r - proj prev) / (0.1 : ℚ)) :: diffAux proj r rs

/-- `df[c].diff() / 0.1` (lines 43 and 58).  The first row has no predecessor,
so `.diff()` yields NaN there (`none`). -/
def naiveDiff (proj : Row → ℚ) : List Row → List (Option ℚ)
  | [] => []
  | r :: rs => none :: diffAux proj r rs

/-- Tail of the `same_sequence` boolean column (lines 45-49). -/
def seqAux : Row → List Row → List Bool
  | _, [] => []
  | prev, r :: rs => sameKey prev r :: seqAux r rs

/-- The `same_sequence` boolean column (lines 45-49).  For the first row the
shifted key is NaN, so every comparison is False. -/
def sameSequence : List Row → List Bool
  | [] => []
  | r :: rs => false :: seqAux r rs

/-- `df.loc[~same_sequence, c] = pd.NA` (lines 51 and 60): cells whose
`same_sequence` flag is false are replaced by a missing value. -/
def maskBoundary (vals : List (Option ℚ)) (mask : List Bool) : List (Option ℚ) :=
  List.zipWith (fun v b => if b then v else none) vals mask

/-- `Series.bfill()` (lines 53 and 62): every missing cell takes the value of
the next non-missing cell below it; trailing missing cells stay missing. -/
def bfill : List (Option ℚ) → List (Option ℚ)
  | [] => []
  | some q :: rest => some q :: bfill rest
  | none :: rest => (bfill rest).headD none :: bfill rest

/-- The full two-phase derivative algorithm of feature_engineering.py
(naive diff, boundary masking, backward fill) applied to column `proj`. -/
def derivFeature (proj : Row → ℚ) (df : List Row) : List (Option ℚ) :=
  bfill (maskBoundary (naiveDiff proj df) (sameSequence df))

/-- The `jerk` column, feature_engineering.py lines 43-53: naive
`df['a'].diff() / 0.1`, boundary rows masked to NA, then backward fill. -/
def jerkCol (df : List Row) : List (Option ℚ) :=
  bfill (maskBoundary (naiveDiff (fun r => r.a) df) (sameSequence df))

/-- The `angular_velocity` column, feature_engineering.py lines 58-62: naive
`df['o'].diff() / 0.1`, boundary rows masked to NA, then backward fill. -/
def angularVelocityCol (df : List Row) : List (Option ℚ) :=
  bfill (maskBoundary (naiveDiff (fun r => r.o) df) (sameSequence df))

/-- Proof-side characterization (tail): the masked naive diff computed in one
pass.  `maskedDiffEq` below proves it equal to the source pipeline. -/
def maskedDiffAux (proj : Row → ℚ) : Row → List Row → List (Option ℚ)
  | _, [] => []
  | prev, r :: rs =>
      (if sameKey prev r then some ((proj r - proj prev) / (0.1 : ℚ)) else none) ::
        maskedDiffAux proj r rs

/-- Proof-side characterization: the masked naive diff column (before the
backward fill) computed in one pass. -/
def maskedDiff (proj : Row → ℚ) : List Row → List (Option ℚ)
  | [] => []
  | r :: rs => none :: maskedDiffAux proj r rs

/-- Python `%` as used by pandas on numbers: the remainder has the sign of the
divisor, `x % y = x - y * floor(x / y)`. -/
def pymod (x y : ℚ) : ℚ := x - y * (⌊x / y⌋ : ℚ)

/-- The angle normalization `((θ + 180) % 360) - 180` used for `angle_diff`
(line 35), `bearing_diff` (line 94) and `bearing_diff_dir` (line 99). -/
def normalize_deg (θ : ℚ) : ℚ := pymod (θ + 180) 360 - 180

/-- `path_curvature` for one row (feature_engineering.py lines 64-69):
angular velocity converted to radians with the float value `pi`, divided by
speed with `0` replaced by NaN, then NaN filled with `0`.  A missing angular
velocity (`none`) also propagates to NaN and is filled with `0`. -/
def path_curvature (pi : ℚ) (av : Option ℚ) (s : ℚ) : ℚ :=
  match av with
  | none => 0
  | some v => if s = 0 then 0 else (v * (pi / 180)) / s

end BDB

namespace BDB

/-! ### The masked-diff characterization and positional lemmas -/

theorem maskedDiffAuxEq (proj : Row → ℚ) :
    ∀ (l : List Row) (prev : Row),
      maskBoundary (diffAux proj prev l) (seqAux prev l) = maskedDiffAux proj prev l := by
  intro l
  induction l with
  | nil => intro prev; rfl
  | cons r rs ih =>
      intro prev
      simp only [diffAux, seqAux, maskedDiffAux, maskBoundary, List.zipWith]
      rw [show List.zipWith (fun v b => if b then v else none)
            (diffAux proj r rs) (seqAux r rs) = maskedDiffAux proj r rs from ih r]

theorem maskedDiffEq (proj : Row → ℚ) (df : List Row) :
    maskBoundary (naiveDiff proj df) (sameSequence df) = maskedDiff proj df := by
  cases df with
  | nil => rfl
  | cons r rs =>
      simp only [naiveDiff, sameSequence, maskedDiff, maskBoundary, List.zipWith]
      rw [show List.zipWith (fun v b => if b then v else none)
            (diffAux proj r rs) (seqAux r rs) = maskedDiffAux proj r rs from
          maskedDiffAuxEq proj rs r]
      norm_num

theorem derivFeature_eq_bfill_maskedDiff (proj : Row → ℚ) (df : List Row) :
    derivFeature proj df = bfill (maskedDiff proj df) := by
  unfold derivFeature
  rw [maskedDiffEq]

end BDB

namespace BDB

/-! ### C4: the angle normalization -/

/-- C4 (corrected): for every angle θ, `normalize_deg θ` lies in the half-open
interval `[-180, 180)` (closed on the left, open on the right — not
`(-180, 180]` as claimed), and `normalize_deg` is periodic with period 360. -/
theorem normalize_deg_range_and_periodic (θ : ℚ) :
    (-180 ≤ normalize_deg θ ∧ normalize_deg θ < 180) ∧
      normalize_deg (θ + 360) = normalize_deg θ := by
  constructor
  · have hfr : pymod (θ + 180) 360 = 360 * Int.fract ((θ + 180) / 360) := by
      unfold pymod Int.fract
      field_simp
    constructor
    · have h0 : (0 : ℚ) ≤ Int.fract ((θ + 180) / 360) := Int.fract_nonneg _
      unfold normalize_deg
      rw [hfr]
      nlinarith
    · have h1 : Int.fract ((θ + 180) / 360) < 1 := Int.fract_lt_one _
      unfold normalize_deg
      rw [hfr]
      nlinarith
  · unfold normalize_deg pymod
    have hdiv : (θ + 360 + 180) / 360 = (θ + 180) / 360 + 1 := by ring
    rw [hdiv, Int.floor_add_one]
    push_cast
    ring

/-- C4 counterexample: at θ = 180 the normalization returns −180, which is not
in the claimed interval `(-180, 180]`. -/
theorem normalize_deg_at_180 :
    normalize_deg 180 = -180 ∧ ¬ (-180 < normalize_deg 180 ∧ normalize_deg 180 ≤ 180) := by
  have h : normalize_deg 180 = -180 := by
    unfold normalize_deg pymod
    norm_num
  exact ⟨h, by rw [h]; norm_num⟩

end BDB

namespace BDB

/-! ### Structural lemmas about `bfill` and the masked diff column -/

theorem bfill_drop : ∀ (l : List (Option ℚ)) (n : ℕ), (bfill l).drop n = bfill (l.drop n) := by
  intro l
  induction l with
  | nil => intro n; simp [bfill]
  | cons x xs ih =>
      intro n
      cases n with
      | zero => simp
      | succ m =>
          cases x with
          | none => simpa [bfill] using ih m
          | some q => simpa [bfill] using ih m

theorem bfill_length : ∀ l : List (Option ℚ), (bfill l).length = l.length := by
  intro l
  induction l with
  | nil => rfl
  | cons x xs ih =>
      cases x with
      | none => simp [bfill, ih]
      | some q => simp [bfill, ih]

theorem maskedDiffAux_length (proj : Row → ℚ) :
    ∀ (l : List Row) (prev : Row), (maskedDiffAux proj prev l).length = l.length := by
  intro l
  induction l with
  | nil => intro prev; rfl
  | cons r rs ih => intro prev; simp [maskedDiffAux, ih r]

theorem maskedDiffAux_drop (proj : Row → ℚ) :
    ∀ (l₁ : List Row) (prev : Row) (l₂ : List Row),
      (maskedDiffAux proj prev (l₁ ++ l₂)).drop l₁.length =
        maskedDiffAux proj (l₁.getLastD prev) l₂ := by
  intro l₁
  induction l₁ with
  | nil => intro prev l₂; simp
  | cons p ps ih =>
      intro prev l₂
      simp only [List.cons_append, maskedDiffAux, List.length_cons, List.drop_succ_cons,
        List.getLastD_cons]
      exact ih p l₂

theorem maskedDiff_drop_cons (proj : Row → ℚ) (pre : List Row) (r : Row) (l : List Row) :
    ∃ c : Option ℚ,
      (maskedDiff proj (pre ++ r :: l)).drop pre.length = c :: maskedDiffAux proj r l := by
  cases pre with
  | nil => exact ⟨none, by simp [maskedDiff]⟩
  | cons p ps =>
      refine ⟨if sameKey (ps.getLastD p) r then
          some ((proj r - proj (ps.getLastD p)) / (0.1 : ℚ)) else none, ?_⟩
      simp only [List.cons_append, maskedDiff, List.length_cons, List.drop_succ_cons]
      rw [maskedDiffAux_drop proj ps p (r :: l)]
      rfl

/-- The element of the masked diff column at the start of a trajectory block is
`none` when the preceding row (if any) has a different key. -/
theorem maskedDiff_drop_boundary (proj : Row → ℚ) (pre : List Row) (r : Row) (l : List Row)
    (hb : ∀ p, pre.getLast? = some p → sameKey p r = false) :
    (maskedDiff proj (pre ++ r :: l)).drop pre.length = none :: maskedDiffAux proj r l := by
  cases pre with
  | nil => simp [maskedDiff]
  | cons p ps =>
      simp only [List.cons_append, maskedDiff, List.length_cons, List.drop_succ_cons]
      rw [maskedDiffAux_drop proj ps p (r :: l)]
      have hlast : (p :: ps).getLast? = some (ps.getLastD p) := by
        have h1 : (p :: ps).getLast? = some ((p :: ps).getLast (by simp)) :=
          List.getLast?_eq_getLast _ (by simp)
        have h2 : (p :: ps).getLastD p = ((p :: ps).getLast?).getD p :=
          List.getLastD_eq_getLast? p (p :: ps)
        rw [h1] at h2 ⊢
        simp only [Option.getD_some] at h2
        rw [List.getLastD_cons] at h2
        rw [← h2]
      have hk : sameKey (ps.getLastD p) r = false := hb _ hlast
      simp only [maskedDiffAux, hk]
      simp

theorem maskedDiff_drop_succ (proj : Row → ℚ) (pre : List Row) (r : Row) (l : List Row) :
    (maskedDiff proj (pre ++ r :: l)).drop (pre.length + 1) = maskedDiffAux proj r l := by
  obtain ⟨c, hc⟩ := maskedDiff_drop_cons proj pre r l
  have : (maskedDiff proj (pre ++ r :: l)).drop (pre.length + 1) =
      ((maskedDiff proj (pre ++ r :: l)).drop pre.length).drop 1 := by
    rw [List.drop_drop]
  rw [this, hc]
  rfl

/-- Core backfill fact: at a trajectory start `r₁` immediately followed by a
same-key row `r₂`, the finished derivative column holds the within-trajectory
difference at both positions. -/
theorem derivFeature_backfill (proj : Row → ℚ) (pre rest : List Row) (r₁ r₂ : Row)
    (hb : ∀ p, pre.getLast? = some p → sameKey p r₁ = false)
    (hk : sameKey r₁ r₂ = true) :
    (derivFeature proj (pre ++ r₁ :: r₂ :: rest))[pre.length]? =
        some (some ((proj r₂ - proj r₁) / (0.1 : ℚ))) ∧
      (derivFeature proj (pre ++ r₁ :: r₂ :: rest))[pre.length + 1]? =
        some (some ((proj r₂ - proj r₁) / (0.1 : ℚ))) := by
  rw [derivFeature_eq_bfill_maskedDiff]
  have hdrop := maskedDiff_drop_boundary proj pre r₁ (r₂ :: rest) hb
  simp only [maskedDiffAux, hk, if_pos] at hdrop
  constructor
  · rw [← List.head?_drop, bfill_drop, hdrop]
    simp [bfill]
  · rw [← List.head?_drop, bfill_drop]
    have : (maskedDiff proj (pre ++ r₁ :: r₂ :: rest)).drop (pre.length + 1) =
        ((maskedDiff proj (pre ++ r₁ :: r₂ :: rest)).drop pre.length).drop 1 := by
      rw [List.drop_drop]
    rw [this, hdrop]
    simp [bfill]

/-- Core masking fact: a row whose predecessor has the same key keeps its naive
difference in the finished derivative column, independent of anything else. -/
theorem derivFeature_inner (proj : Row → ℚ) (pre rest : List Row) (r₁ r₂ : Row)
    (hk : sameKey r₁ r₂ = true) :
    (derivFeature proj (pre ++ r₁ :: r₂ :: rest))[pre.length + 1]? =
      some (some ((proj r₂ - proj r₁) / (0.1 : ℚ))) := by
  rw [derivFeature_eq_bfill_maskedDiff]
  rw [← List.head?_drop, bfill_drop, maskedDiff_drop_succ]
  simp only [maskedDiffAux, hk, if_pos]
  simp [bfill]

end BDB

namespace BDB

theorem jerkCol_eq_derivFeature (df : List Row) : jerkCol df = derivFeature (fun r => r.a) df :=
  rfl

theorem angularVelocityCol_eq_derivFeature (df : List Row) :
    angularVelocityCol df = derivFeature (fun r => r.o) df :=
  rfl

/-- C1: in a dataset whose trajectories are contiguous, a trajectory of at
least 2 frames (first row `r₁` preceded by nothing or by a row of a different
key, second row `r₂` with the same key) gets its first row's jerk
backward-filled to the second row's jerk, which is `(r₂.a - r₁.a) / 0.1`; and
every non-boundary row's jerk is `(a_current - a_previous) / 0.1`. -/
theorem jerk_backfill_contract (pre rest : List Row) (r₁ r₂ : Row)
    (hb : ∀ p, pre.getLast? = some p → sameKey p r₁ = false)
    (hk : sameKey r₁ r₂ = true) :
    ((jerkCol (pre ++ r₁ :: r₂ :: rest))[pre.length]? =
        (jerkCol (pre ++ r₁ :: r₂ :: rest))[pre.length + 1]? ∧
      (jerkCol (pre ++ r₁ :: r₂ :: rest))[pre.length + 1]? =
        some (some ((r₂.a - r₁.a) / (0.1 : ℚ)))) ∧
    ∀ (pre' rest' : List Row) (q₁ q₂ : Row), sameKey q₁ q₂ = true →
      (jerkCol (pre' ++ q₁ :: q₂ :: rest'))[pre'.length + 1]? =
        some (some ((q₂.a - q₁.a) / (0.1 : ℚ))) := by
  have h := derivFeature_backfill (fun r => r.a) pre rest r₁ r₂ hb hk
  rw [jerkCol_eq_derivFeature]
  refine ⟨⟨h.1.trans h.2.symm, h.2⟩, ?_⟩
  intro pre' rest' q₁ q₂ hk'
  rw [jerkCol_eq_derivFeature]
  exact derivFeature_inner (fun r => r.a) pre' rest' q₁ q₂ hk'

/-- Row A of the spec §8 scenario: frame 1 of player 1 in play 1 of game 1,
with a = 2.0 and o = 10. -/
def rowA : Row := ⟨1, 1, 1, 1, 0, 2, 10, 0, 0, 0, 0, 0, 0, 0, 0, 0, 0, "right"⟩

/-- Row B of the spec §8 scenario: frame 2 with a = 2.5 and o = 15. -/
def rowB : Row := ⟨1, 1, 1, 2, 0, 2.5, 15, 0, 0, 0, 0, 0, 0, 0, 0, 0, 0, "right"⟩

/-- C1 witness: on the spec §8 scenario the naive jerk at row B is 5.0 and the
jerk at row A is backward-filled to 5.0 as well. -/
theorem jerk_backfill_contract_witness :
    (jerkCol [rowA, rowB])[0]? = some (some 5) ∧
      (jerkCol [rowA, rowB])[1]? = some (some 5) := by
  have h := jerk_backfill_contract [] [] rowA rowB
    (by intro p hp; simp at hp) (by decide)
  simp only [List.nil_append, List.length_nil, Nat.zero_add] at h
  have hval : ((rowB.a - rowA.a) / (0.1 : ℚ)) = 5 := by
    show (((2.5 : ℚ)) - 2) / (0.1 : ℚ) = 5
    norm_num
  rw [hval] at h
  exact ⟨h.1.1.trans h.1.2, h.1.2⟩

/-- C3: the angular-velocity column is the identical two-phase algorithm
(naive diff over 0.1 s, boundary masking via the shared `same_sequence`,
backward fill) applied to column `o` instead of `a`, and consequently the
first row of a trajectory of at least 2 frames gets the second row's
angular velocity, exactly as for jerk. -/
theorem angular_velocity_same_algorithm (pre rest : List Row) (r₁ r₂ : Row)
    (hb : ∀ p, pre.getLast? = some p → sameKey p r₁ = false)
    (hk : sameKey r₁ r₂ = true) :
    (∀ df : List Row,
        angularVelocityCol df = derivFeature (fun r => r.o) df ∧
          jerkCol df = derivFeature (fun r => r.a) df) ∧
      (angularVelocityCol (pre ++ r₁ :: r₂ :: rest))[pre.length]? =
        (angularVelocityCol (pre ++ r₁ :: r₂ :: rest))[pre.length + 1]? ∧
      (angularVelocityCol (pre ++ r₁ :: r₂ :: rest))[pre.length + 1]? =
        some (some ((r₂.o - r₁.o) / (0.1 : ℚ))) := by
  have h := derivFeature_backfill (fun r => r.o) pre rest r₁ r₂ hb hk
  rw [angularVelocityCol_eq_derivFeature]
  exact ⟨fun df => ⟨rfl, rfl⟩, h.1.trans h.2.symm, h.2⟩

/-- C3 witness: on the spec §8 scenario (o = 10 then o = 15) the angular
velocity at row B is 50 deg/s and row A is backward-filled to 50 as well. -/
theorem angular_velocity_same_algorithm_witness :
    (angularVelocityCol [rowA, rowB])[0]? = some (some 50) ∧
      (angularVelocityCol [rowA, rowB])[1]? = some (some 50) := by
  have h := angular_velocity_same_algorithm [] [] rowA rowB
    (by intro p hp; simp at hp) (by decide)
  simp only [List.nil_append, List.length_nil, Nat.zero_add] at h
  have hval : ((rowB.o - rowA.o) / (0.1 : ℚ)) = 50 := by
    show (((15 : ℚ)) - 10) / (0.1 : ℚ) = 50
    norm_num
  rw [hval] at h
  exact ⟨h.2.1.trans h.2.2, h.2.2⟩

end BDB

namespace BDB

/-! ### C2: trajectory locality of the derivative columns -/

theorem maskedDiffAux_append (proj : Row → ℚ) :
    ∀ (l₁ : List Row) (prev : Row) (l₂ : List Row),
      maskedDiffAux proj prev (l₁ ++ l₂) =
        maskedDiffAux proj prev l₁ ++ maskedDiffAux proj (l₁.getLastD prev) l₂ := by
  intro l₁
  induction l₁ with
  | nil => intro prev l₂; simp [maskedDiffAux]
  | cons r rs ih =>
      intro prev l₂
      simp only [List.cons_append, maskedDiffAux, List.getLastD_cons, List.append_eq]
      rw [ih r l₂]

theorem maskedDiffAux_all_some (proj : Row → ℚ) :
    ∀ (ts : List Row) (t : Row),
      List.Chain' (fun r r' => sameKey r r' = true) (t :: ts) →
        ∀ x ∈ maskedDiffAux proj t ts, x.isSome = true := by
  intro ts
  induction ts with
  | nil => intro t _ x hx; simp [maskedDiffAux] at hx
  | cons t₂ ts' ih =>
      intro t hchain x hx
      have hk : sameKey t t₂ = true := (List.chain'_cons.mp hchain).1
      have hrest := (List.chain'_cons.mp hchain).2
      simp only [maskedDiffAux, hk, if_pos, List.mem_cons] at hx
      rcases hx with rfl | hx
      · rfl
      · exact ih t₂ hrest x hx

theorem bfill_of_all_some :
    ∀ (w p : List (Option ℚ)), (∀ x ∈ w, x.isSome = true) → bfill (w ++ p) = w ++ bfill p := by
  intro w
  induction w with
  | nil => intro p _; rfl
  | cons x xs ih =>
      intro p hsome
      cases x with
      | none => exact absurd (hsome none (by simp)) (by simp)
      | some v =>
          simp only [List.cons_append, bfill, List.append_eq]
          rw [ih p (fun y hy => hsome y (by simp [hy]))]

/-- Locality of the finished derivative column: the values over a contiguous
trajectory block of at least two rows equal the values the algorithm produces
on the block alone — they use no row outside the block. -/
theorem derivFeature_local (proj : Row → ℚ) (pre T post : List Row)
    (hT : 2 ≤ T.length)
    (hchain : List.Chain' (fun r r' => sameKey r r' = true) T)
    (hb : ∀ p, pre.getLast? = some p → ∀ t, T.head? = some t → sameKey p t = false) :
    ∀ j, j < T.length →
      (derivFeature proj (pre ++ T ++ post))[pre.length + j]? =
        (derivFeature proj T)[j]? := by
  match T, hT with
  | t₁ :: t₂ :: ts, _ =>
    intro j hj
    have hk : sameKey t₁ t₂ = true := (List.chain'_cons.mp hchain).1
    set w : List (Option ℚ) := maskedDiffAux proj t₁ (t₂ :: ts) with hw
    have hwsome : ∀ x ∈ w, x.isSome = true :=
      maskedDiffAux_all_some proj (t₂ :: ts) t₁ hchain
    have hwhead : w = some ((proj t₂ - proj t₁) / (0.1 : ℚ)) :: maskedDiffAux proj t₂ ts := by
      rw [hw]
      simp [maskedDiffAux, hk]
    -- the standalone column over the block alone
    have hT_eq : derivFeature proj (t₁ :: t₂ :: ts) =
        some ((proj t₂ - proj t₁) / (0.1 : ℚ)) :: w := by
      rw [derivFeature_eq_bfill_maskedDiff]
      have : maskedDiff proj (t₁ :: t₂ :: ts) = none :: w := by
        rw [hw]; rfl
      rw [this]
      have hwfill : bfill w = w := by
        have := bfill_of_all_some w [] hwsome
        simpa [bfill] using this
      show (bfill w).headD none :: bfill w = _
      rw [hwfill, hwhead]
      rfl
    -- the column over the whole dataset, dropped to the block's start
    have hb' : ∀ p, pre.getLast? = some p → sameKey p t₁ = false := by
      intro p hp
      exact hb p hp t₁ rfl
    have hdrop : (maskedDiff proj (pre ++ (t₁ :: t₂ :: ts) ++ post)).drop pre.length =
        none :: (w ++ maskedDiffAux proj ((t₂ :: ts).getLastD t₁) post) := by
      have hassoc : pre ++ (t₁ :: t₂ :: ts) ++ post = pre ++ t₁ :: ((t₂ :: ts) ++ post) := by
        simp
      rw [hassoc, maskedDiff_drop_boundary proj pre t₁ ((t₂ :: ts) ++ post) hb',
        maskedDiffAux_append proj (t₂ :: ts) t₁ post]
    have hfull : ((derivFeature proj (pre ++ (t₁ :: t₂ :: ts) ++ post)).drop pre.length) =
        some ((proj t₂ - proj t₁) / (0.1 : ℚ)) ::
          (w ++ bfill (maskedDiffAux proj ((t₂ :: ts).getLastD t₁) post)) := by
      rw [derivFeature_eq_bfill_maskedDiff, bfill_drop, hdrop]
      show (bfill (w ++ _)).headD none :: bfill (w ++ _) = _
      rw [bfill_of_all_some w _ hwsome, hwhead]
      rfl
    -- compare position j on both sides
    have hLHS : (derivFeature proj (pre ++ (t₁ :: t₂ :: ts) ++ post))[pre.length + j]? =
        ((derivFeature proj (pre ++ (t₁ :: t₂ :: ts) ++ post)).drop pre.length)[j]? := by
      rw [List.getElem?_drop]
    rw [hLHS, hfull, hT_eq]
    cases j with
    | zero => rfl
    | succ k =>
        simp only [List.getElem?_cons_succ]
        have hklt : k < w.length := by
          have hwlen : w.length = ts.length + 1 := by
            rw [hw, maskedDiffAux_length]
            simp
          simp only [List.length_cons] at hj
          omega
        exact List.getElem?_append_left hklt

end BDB

namespace BDB

/-- A single-row trajectory: game 1, play 1, player 1, frame 5, a = 7, o = 0. -/
def rowU : Row := ⟨1, 1, 1, 5, 0, 7, 0, 0, 0, 0, 0, 0, 0, 0, 0, 0, 0, "right"⟩

/-- First row of the next trajectory (player 2): frame 1, a = 1, o = 3. -/
def rowV : Row := ⟨1, 1, 2, 1, 0, 1, 3, 0, 0, 0, 0, 0, 0, 0, 0, 0, 0, "right"⟩

/-- Second row of the next trajectory (player 2): frame 2, a = 2, o = 5. -/
def rowW : Row := ⟨1, 1, 2, 2, 0, 2, 5, 0, 0, 0, 0, 0, 0, 0, 0, 0, 0, "right"⟩

/-- C2 counterexample: the dataset [rowU, rowV, rowW] has a single-row
trajectory (rowU, player 1) followed by a two-row trajectory (player 2).  The
global backward fill assigns rowU the jerk (rowW.a − rowV.a)/0.1 = 10 and the
angular velocity 20, both computed entirely from rows of the other
trajectory — the claimed invariant fails for single-row trajectories. -/
theorem cross_trajectory_fill_cex :
    sameKey rowU rowV = false ∧ sameKey rowV rowW = true ∧
      (jerkCol [rowU, rowV, rowW])[0]? = some (some ((rowW.a - rowV.a) / (0.1 : ℚ))) ∧
      (jerkCol [rowU, rowV, rowW])[0]? = some (some 10) ∧
      (angularVelocityCol [rowU, rowV, rowW])[0]? = some (some 20) := by
  have h1 : sameKey rowU rowV = false := by decide
  have h2 : sameKey rowV rowW = true := by decide
  have hj : jerkCol [rowU, rowV, rowW] =
      bfill (maskedDiff (fun r => r.a) [rowU, rowV, rowW]) := by
    rw [jerkCol_eq_derivFeature, derivFeature_eq_bfill_maskedDiff]
  have hav : angularVelocityCol [rowU, rowV, rowW] =
      bfill (maskedDiff (fun r => r.o) [rowU, rowV, rowW]) := by
    rw [angularVelocityCol_eq_derivFeature, derivFeature_eq_bfill_maskedDiff]
  have hmj : maskedDiff (fun r => r.a) [rowU, rowV, rowW] =
      [none, none, some ((rowW.a - rowV.a) / (0.1 : ℚ))] := by
    simp [maskedDiff, maskedDiffAux, h1, h2]
  have hmo : maskedDiff (fun r => r.o) [rowU, rowV, rowW] =
      [none, none, some ((rowW.o - rowV.o) / (0.1 : ℚ))] := by
    simp [maskedDiff, maskedDiffAux, h1, h2]
  have haval : ((rowW.o - rowV.o) / (0.1 : ℚ)) = 20 := by
    show (((5 : ℚ)) - 3) / (0.1 : ℚ) = 20
    norm_num
  have hjval : ((rowW.a - rowV.a) / (0.1 : ℚ)) = 10 := by
    show (((2 : ℚ)) - 1) / (0.1 : ℚ) = 10
    norm_num
  refine ⟨h1, h2, ?_, ?_, ?_⟩
  · rw [hj, hmj]; simp [bfill]
  · rw [hj, hmj, hjval]; simp [bfill]
  · rw [hav, hmo, haval]; simp [bfill]

/-- C2 (corrected): over a contiguous trajectory block of at least two rows,
the finished jerk and angular-velocity values coincide with those computed
from the block alone, so they never use a row of a different trajectory; the
original claim's extension to single-row trajectories is false (see the
counterexample), such rows being backward-filled from the next trajectory. -/
theorem deriv_no_cross_trajectory (pre T post : List Row)
    (hT : 2 ≤ T.length)
    (hchain : List.Chain' (fun r r' => sameKey r r' = true) T)
    (hb : ∀ p, pre.getLast? = some p → ∀ t, T.head? = some t → sameKey p t = false) :
    ∀ j, j < T.length →
      (jerkCol (pre ++ T ++ post))[pre.length + j]? = (jerkCol T)[j]? ∧
        (angularVelocityCol (pre ++ T ++ post))[pre.length + j]? =
          (angularVelocityCol T)[j]? := by
  intro j hj
  constructor
  · rw [jerkCol_eq_derivFeature, jerkCol_eq_derivFeature]
    exact derivFeature_local (fun r => r.a) pre T post hT hchain hb j hj
  · rw [angularVelocityCol_eq_derivFeature, angularVelocityCol_eq_derivFeature]
    exact derivFeature_local (fun r => r.o) pre T post hT hchain hb j hj

/-- A row of an unrelated earlier trajectory (player 9). -/
def rowPre : Row := ⟨9, 9, 9, 1, 0, 0, 0, 0, 0, 0, 0, 0, 0, 0, 0, 0, 0, "right"⟩

/-- A row of an unrelated later trajectory (player 8). -/
def rowPost : Row := ⟨8, 8, 8, 1, 0, 0, 0, 0, 0, 0, 0, 0, 0, 0, 0, 0, 0, "right"⟩

/-- C2 witness: surrounded by unrelated trajectories, the block [rowA, rowB]
keeps exactly the values the algorithm computes on [rowA, rowB] alone. -/
theorem deriv_no_cross_trajectory_witness :
    (jerkCol [rowPre, rowA, rowB, rowPost])[1]? = (jerkCol [rowA, rowB])[0]? ∧
      (angularVelocityCol [rowPre, rowA, rowB, rowPost])[2]? =
        (angularVelocityCol [rowA, rowB])[1]? := by
  have h := deriv_no_cross_trajectory [rowPre] [rowA, rowB] [rowPost]
    (by norm_num)
    (List.chain'_cons.mpr ⟨by decide, List.chain'_singleton rowB⟩)
    (by
      intro p hp t ht
      have hp' : rowPre = p := by simpa using hp
      have ht' : rowA = t := by simpa using ht
      rw [← hp', ← ht']
      decide)
  refine ⟨?_, ?_⟩
  · have h0 := h 0 (by norm_num)
    simpa using h0.1
  · have h1 := h 1 (by norm_num)
    simpa using h1.2

end BDB

namespace BDB

/-! ### The coordinate standardizer (utils.py, `invert_direction`) -/

/-- utils.py lines 106-121, row view: for a row whose `play_direction` is
"left", the nine coordinate/angle columns are reflected against the field
dimensions (length 120 yd, width 53.3 yd, angles against 360); all other rows
and all other columns are untouched, including `play_direction` itself. -/
def invertRow (r : Row) : Row :=
  if r.play_direction = "left" then
    { r with
      absolute_yardline_number := 120 - r.absolute_yardline_number
      x_input := 120 - r.x_input
      y_input := 53.3 - r.y_input
      o := 360 - r.o
      dir := 360 - r.dir
      ball_land_x := 120 - r.ball_land_x
      ball_land_y := 53.3 - r.ball_land_y
      x_target := 120 - r.x_target
      y_target := 53.3 - r.y_target }
  else r

/-- utils.py `invert_direction` on the row view: `df.copy()` followed by the
masked column updates acts row-wise, producing a new list of rows. -/
def invertDirection (df : List Row) : List Row := df.map invertRow

/-- The composite key (game_id, play_id, nfl_id, frame_id) of a row. -/
def keyOf (r : Row) : ℤ × ℤ × ℤ × ℤ := (r.game_id, r.play_id, r.nfl_id, r.frame_id)

/-- C5 (corrected): a "left" row has exactly the nine listed columns rewritten
by reflection and every other column preserved; on the documented scenario
(x=30, y=30, o=270, dir=180) the code produces dir = 360 − 180 = 180, not the
dir = 0 stated in the claim's scenario. -/
theorem invert_left_row_transform (r : Row) (h : r.play_direction = "left") :
    (invertRow r).absolute_yardline_number = 120 - r.absolute_yardline_number ∧
    (invertRow r).x_input = 120 - r.x_input ∧
    (invertRow r).y_input = 53.3 - r.y_input ∧
    (invertRow r).o = 360 - r.o ∧
    (invertRow r).dir = 360 - r.dir ∧
    (invertRow r).ball_land_x = 120 - r.ball_land_x ∧
    (invertRow r).ball_land_y = 53.3 - r.ball_land_y ∧
    (invertRow r).x_target = 120 - r.x_target ∧
    (invertRow r).y_target = 53.3 - r.y_target ∧
    (invertRow r).game_id = r.game_id ∧ (invertRow r).play_id = r.play_id ∧
    (invertRow r).nfl_id = r.nfl_id ∧ (invertRow r).frame_id = r.frame_id ∧
    (invertRow r).s = r.s ∧ (invertRow r).a = r.a ∧
    (invertRow r).player_height = r.player_height ∧
    (invertRow r).player_weight = r.player_weight ∧
    (invertRow r).play_direction = r.play_direction := by
  simp [invertRow, h]

/-- The documented "left" scenario row: x=30, y=30, o=270, dir=180. -/
def rowLeft : Row := ⟨1, 1, 1, 1, 0, 0, 270, 180, 30, 30, 0, 0, 50, 10, 20, 40, 25, "left"⟩

/-- C5 counterexample: on the claim's own scenario the code yields dir = 180
(360 − 180), not the claimed dir = 0; the other scenario values do match. -/
theorem invert_left_scenario_dir_cex :
    rowLeft.play_direction = "left" ∧ rowLeft.dir = 180 ∧
      (invertRow rowLeft).dir = 180 ∧ ¬ (invertRow rowLeft).dir = 0 ∧
      (invertRow rowLeft).x_input = 90 ∧ (invertRow rowLeft).y_input = 23.3 ∧
      (invertRow rowLeft).o = 90 := by
  refine ⟨rfl, rfl, ?_, ?_, ?_, ?_, ?_⟩ <;>
    norm_num [invertRow, rowLeft]

/-- C5 witness: the amended scenario, from the general transform theorem. -/
theorem invert_left_row_transform_witness :
    (invertRow rowLeft).x_input = 90 ∧ (invertRow rowLeft).y_input = 23.3 ∧
      (invertRow rowLeft).o = 90 ∧ (invertRow rowLeft).dir = 180 := by
  have h := invert_left_row_transform rowLeft rfl
  refine ⟨?_, ?_, ?_, ?_⟩
  · rw [h.2.1]; norm_num [rowLeft]
  · rw [h.2.2.1]; norm_num [rowLeft]
  · rw [h.2.2.2.1]; norm_num [rowLeft]
  · rw [h.2.2.2.2.1]; norm_num [rowLeft]

/-- C6: standardization returns a fresh dataset (a pure value in this model,
leaving its argument untouched) with row count, composite keys and row order
unchanged; "right" rows come back identical — a dataset of only "right" rows
is returned unchanged — and `play_direction` is never updated on any row. -/
theorem invert_direction_frame_effect (df : List Row) :
    (invertDirection df).length = df.length ∧
    (invertDirection df).map keyOf = df.map keyOf ∧
    (invertDirection df).map Row.play_direction = df.map Row.play_direction ∧
    (∀ r, r.play_direction = "right" → invertRow r = r) ∧
    (∀ (i : ℕ) (r : Row), df[i]? = some r → r.play_direction = "right" →
        (invertDirection df)[i]? = some r) ∧
    ((∀ r ∈ df, r.play_direction = "right") → invertDirection df = df) := by
  have hkey : ∀ r, keyOf (invertRow r) = keyOf r := by
    intro r
    unfold invertRow keyOf
    split <;> rfl
  have hpd : ∀ r, (invertRow r).play_direction = r.play_direction := by
    intro r
    unfold invertRow
    split <;> rfl
  have hright : ∀ r : Row, r.play_direction = "right" → invertRow r = r := by
    intro r hr
    unfold invertRow
    rw [hr]
    simp
  refine ⟨by simp [invertDirection], ?_, ?_, hright, ?_, ?_⟩
  · rw [invertDirection, List.map_map]
    exact List.map_congr_left fun r _ => hkey r
  · rw [invertDirection, List.map_map]
    exact List.map_congr_left fun r _ => hpd r
  · intro i r hi hr
    rw [invertDirection, List.getElem?_map, hi]
    simp [hright r hr]
  · intro hall
    rw [invertDirection]
    have : df.map invertRow = df.map id := List.map_congr_left fun r hr => by
      rw [hright r (hall r hr)]; rfl
    rw [this, List.map_id]

/-- C6 witness: a two-row dataset of "right" rows is returned unchanged. -/
theorem invert_direction_frame_effect_witness :
    invertDirection [rowA, rowB] = [rowA, rowB] ∧
      (invertDirection [rowA, rowB]).length = 2 := by
  have h := invert_direction_frame_effect [rowA, rowB]
  have hall : ∀ r ∈ [rowA, rowB], r.play_direction = "right" := by
    intro r hr
    rcases List.mem_cons.mp hr with rfl | hr
    · rfl
    · rcases List.mem_cons.mp hr with rfl | hr
      · rfl
      · simp at hr
  refine ⟨h.2.2.2.2.2 hall, ?_⟩
  rw [h.1]
  rfl

/-- C7: because `play_direction` is not flipped by the first application, a
second application reflects the nine rewritten columns again and restores the
original values — the reflection is its own inverse on "left" rows. -/
theorem invert_involutive_on_left (r : Row) (h : r.play_direction = "left") :
    (invertRow (invertRow r)).x_input = r.x_input ∧
    (invertRow (invertRow r)).y_input = r.y_input ∧
    (invertRow (invertRow r)).o = r.o ∧
    (invertRow (invertRow r)).dir = r.dir ∧
    (invertRow (invertRow r)).ball_land_x = r.ball_land_x ∧
    (invertRow (invertRow r)).ball_land_y = r.ball_land_y ∧
    (invertRow (invertRow r)).x_target = r.x_target ∧
    (invertRow (invertRow r)).y_target = r.y_target ∧
    (invertRow (invertRow r)).absolute_yardline_number = r.absolute_yardline_number := by
  have h1 : (invertRow r).play_direction = "left" := by
    unfold invertRow
    split <;> exact h
  simp [invertRow, h, h1, sub_sub_cancel]

/-- C7 witness: the double application restores the concrete "left" row. -/
theorem invert_involutive_on_left_witness :
    (invertRow (invertRow rowLeft)).x_input = rowLeft.x_input ∧
    (invertRow (invertRow rowLeft)).y_input = rowLeft.y_input ∧
    (invertRow (invertRow rowLeft)).o = rowLeft.o ∧
    (invertRow (invertRow rowLeft)).dir = rowLeft.dir ∧
    (invertRow (invertRow rowLeft)).ball_land_x = rowLeft.ball_land_x ∧
    (invertRow (invertRow rowLeft)).ball_land_y = rowLeft.ball_land_y ∧
    (invertRow (invertRow rowLeft)).x_target = rowLeft.x_target ∧
    (invertRow (invertRow rowLeft)).y_target = rowLeft.y_target ∧
    (invertRow (invertRow rowLeft)).absolute_yardline_number =
      rowLeft.absolute_yardline_number :=
  invert_involutive_on_left rowLeft rfl

end BDB

namespace BDB

/-! ### The full feature engine (feature_engineering.py, `engineer_features`) -/

/-- numpy's float routines used by engineer_features, abstracted as opaque
rational-valued parameters: `np.pi`, `np.cos`, `np.sin`, `np.arctan2`,
`np.sqrt` and `np.degrees`.  No claim under check depends on their values. -/
structure FloatPrims where
  pi : ℚ
  cos : ℚ → ℚ
  sin : ℚ → ℚ
  arctan2 : ℚ → ℚ → ℚ
  sqrt : ℚ → ℚ
  degrees : ℚ → ℚ

/-- A row of the augmented DataFrame: the original row plus every engineered
column appended by engineer_features, in source order. -/
structure FeatRow where
  row : Row
  player_bmi : ℚ
  x_velocity : ℚ
  y_velocity : ℚ
  angle_diff : ℚ
  player_momentum : ℚ
  jerk : Option ℚ
  angular_velocity : Option ℚ
  path_curvature : ℚ
  euclidean_dist_to_ball_land : ℚ
  dist_from_los : ℚ
  bearing_to_ball_land : ℚ
  bearing_diff : ℚ
  bearing_diff_dir : ℚ

/-- feature_engineering.py lines 84-89: bearing from the player to the ball
landing spot, converted to degrees and normalized to [0, 360) by
`(bearing_deg + 360) % 360`. -/
def bearingToBallLand (fp : FloatPrims) (r : Row) : ℚ :=
  pymod (fp.degrees (fp.arctan2 (r.ball_land_y - r.y_input) (r.ball_land_x - r.x_input)) + 360)
    360

/-- One augmented row: the per-row formulas of engineer_features (lines 22-99),
with `j` and `av` the row's cells of the already-computed jerk and
angular-velocity columns. -/
def mkFeatRow (fp : FloatPrims) (r : Row) (j av : Option ℚ) : FeatRow :=
  { row := r
    player_bmi := 703 * r.player_weight / (r.player_height ^ 2)
    x_velocity := r.s * fp.cos (r.dir * (fp.pi / 180))
    y_velocity := r.s * fp.sin (r.dir * (fp.pi / 180))
    angle_diff := normalize_deg (r.o - r.dir)
    player_momentum := 0.03108 * r.player_weight * r.s
    jerk := j
    angular_velocity := av
    path_curvature := BDB.path_curvature fp.pi av r.s
    euclidean_dist_to_ball_land :=
      fp.sqrt ((r.x_input - r.ball_land_x) ^ 2 + (r.y_input - r.ball_land_y) ^ 2)
    dist_from_los := r.x_input - r.absolute_yardline_number
    bearing_to_ball_land := bearingToBallLand fp r
    bearing_diff := normalize_deg (r.o - bearingToBallLand fp r)
    bearing_diff_dir := normalize_deg (r.dir - bearingToBallLand fp r) }

/-- Zip of the row list with the two trajectory-derivative columns. -/
def buildFeatRows (fp : FloatPrims) :
    List Row → List (Option ℚ) → List (Option ℚ) → List FeatRow
  | r :: rs, j :: js, av :: avs => mkFeatRow fp r j av :: buildFeatRows fp rs js avs
  | _, _, _ => []

/-- The in-place effect of engineer_features on the caller's DataFrame: every
row gains the engineered columns; the derivative columns come from the
whole-dataset two-phase algorithm. -/
def engineerFeatures (fp : FloatPrims) (df : List Row) : List FeatRow :=
  buildFeatRows fp df (jerkCol df) (angularVelocityCol df)

/-- The Python procedure engineer_features as (state, return value): it
mutates the caller's DataFrame into the augmented dataset and, containing no
return statement, returns None (`none`). -/
def pyEngineerFeatures (fp : FloatPrims) (df : List Row) :
    List FeatRow × Option (List FeatRow) :=
  (engineerFeatures fp df, none)

theorem derivFeature_length (proj : Row → ℚ) (df : List Row) :
    (derivFeature proj df).length = df.length := by
  rw [derivFeature_eq_bfill_maskedDiff, bfill_length]
  cases df with
  | nil => rfl
  | cons r rs => simp [maskedDiff, maskedDiffAux_length]

theorem buildFeatRows_map_row (fp : FloatPrims) :
    ∀ (rs : List Row) (js avs : List (Option ℚ)),
      rs.length ≤ js.length → rs.length ≤ avs.length →
        (buildFeatRows fp rs js avs).map FeatRow.row = rs := by
  intro rs
  induction rs with
  | nil => intro js avs _ _; cases js <;> cases avs <;> rfl
  | cons r rs ih =>
      intro js avs hj hav
      cases js with
      | nil => simp at hj
      | cons j js =>
          cases avs with
          | nil => simp at hav
          | cons av avs =>
              simp only [buildFeatRows, List.map_cons]
              refine congrArg (r :: ·) ?_
              exact ih js avs (by simpa using hj) (by simpa using hav)

theorem buildFeatRows_curvature (fp : FloatPrims) :
    ∀ (rs : List Row) (js avs : List (Option ℚ)) (fr : FeatRow),
      fr ∈ buildFeatRows fp rs js avs →
        fr.path_curvature = BDB.path_curvature fp.pi fr.angular_velocity fr.row.s := by
  intro rs
  induction rs with
  | nil => intro js avs fr hfr; cases js <;> cases avs <;> simp [buildFeatRows] at hfr
  | cons r rs ih =>
      intro js avs fr hfr
      cases js with
      | nil => simp [buildFeatRows] at hfr
      | cons j js =>
          cases avs with
          | nil => simp [buildFeatRows] at hfr
          | cons av avs =>
              rcases List.mem_cons.mp hfr with rfl | hfr
              · rfl
              · exact ih js avs fr hfr

/-- C8: path_curvature is exactly 0 for zero speed, whatever the
angular-velocity cell holds (a value or a missing marker) and whatever float
value stands for π; on the engineered dataset, every row with s = 0 has
path_curvature 0. -/
theorem path_curvature_zero_speed :
    (∀ (pi : ℚ) (av : Option ℚ), path_curvature pi av 0 = 0) ∧
      ∀ (fp : FloatPrims) (df : List Row) (fr : FeatRow),
        fr ∈ engineerFeatures fp df → fr.row.s = 0 → fr.path_curvature = 0 := by
  have hzero : ∀ (pi : ℚ) (av : Option ℚ), path_curvature pi av 0 = 0 := by
    intro pi av
    cases av <;> simp [path_curvature]
  refine ⟨hzero, ?_⟩
  intro fp df fr hmem hs
  have h := buildFeatRows_curvature fp df (jerkCol df) (angularVelocityCol df) fr hmem
  rw [h, hs, hzero]

/-- Arbitrary concrete float primitives for witnesses. -/
def fpTest : FloatPrims := ⟨3, fun x => x, fun x => x, fun x y => x + y, fun x => x, fun x => x⟩

/-- C8 witness: zero-speed rows of a concrete engineered dataset get
curvature exactly 0. -/
theorem path_curvature_zero_speed_witness :
    path_curvature 3 (some 42) 0 = 0 ∧
      (mkFeatRow fpTest rowA none none).path_curvature = 0 := by
  have hlist : engineerFeatures fpTest [rowA] = [mkFeatRow fpTest rowA none none] := rfl
  refine ⟨path_curvature_zero_speed.1 3 (some 42), ?_⟩
  exact path_curvature_zero_speed.2 fpTest [rowA] _
    (by rw [hlist]; exact List.mem_singleton.mpr rfl) rfl

/-- C10: engineer_features contains no return statement, so its Python return
value is None for every input; the augmented dataset is delivered only as the
mutated argument, whose rows are the caller's rows with columns appended. -/
theorem engineer_features_returns_none (fp : FloatPrims) (df : List Row) :
    (pyEngineerFeatures fp df).2 = none ∧
      (pyEngineerFeatures fp df).1 = engineerFeatures fp df ∧
      ((pyEngineerFeatures fp df).1).map FeatRow.row = df := by
  refine ⟨rfl, rfl, ?_⟩
  show (buildFeatRows fp df (jerkCol df) (angularVelocityCol df)).map FeatRow.row = df
  refine buildFeatRows_map_row fp df _ _ ?_ ?_
  · rw [jerkCol_eq_derivFeature, derivFeature_length]
  · rw [angularVelocityCol_eq_derivFeature, derivFeature_length]

end BDB

namespace BDB

/-! ### Column-level model of `invert_direction` (schema errors, C9) -/

/-- A DataFrame cell: numeric or string. -/
inductive Val where
  | num (q : ℚ)
  | str (s : String)
  deriving DecidableEq, Repr

/-- A named-column view of a DataFrame, as `invert_direction` accesses it. -/
abbrev Col := List Val

/-- Association list of column name to column, in frame order. -/
abbrev DFrame := List (String × Col)

/-- The set (list) of column names of a frame. -/
def colNames (df : DFrame) : List String := df.map Prod.fst

/-- `df[c]` / `df.loc[:, c]`: reading a column; a missing name raises a
KeyError carrying the name, modelled as `Except.error c`. -/
def getCol (df : DFrame) (c : String) : Except String Col :=
  match df.find? (fun p => p.1 == c) with
  | some p => Except.ok p.2
  | none => Except.error c

/-- Writing back an existing column (every write in `invert_direction` follows
a successful read of the same column). -/
def setCol (df : DFrame) (c : String) (col : Col) : DFrame :=
  df.map (fun p => if p.1 == c then (p.1, col) else p)

/-- utils.py line 107: `df_out['play_direction'] == 'left'`, elementwise. -/
def isLeftVal (v : Val) : Bool := v == Val.str "left"

/-- One masked cell update `k − v`; non-numeric cells are outside the claims'
scope and are left in place. -/
def reflectVal (k : ℚ) (v : Val) : Val :=
  match v with
  | Val.num q => Val.num (k - q)
  | Val.str t => Val.str t

/-- `df_out.loc[left_data, c] = k - df_out.loc[left_data, c]`: reflect the
cells selected by the boolean mask, keep the rest. -/
def reflectCol (k : ℚ) (mask : List Bool) (col : Col) : Col :=
  List.zipWith (fun b v => if b then reflectVal k v else v) mask col

/-- utils.py lines 109-121: the nine masked reflections, in source order,
each against its field-dimension constant. -/
def reflectSteps : List (String × ℚ) :=
  [("absolute_yardline_number", 120), ("x_input", 120), ("y_input", 53.3),
   ("o", 360), ("dir", 360), ("ball_land_x", 120), ("ball_land_y", 53.3),
   ("x_target", 120), ("y_target", 53.3)]

/-- Run the reflection statements in order; the first read of a missing
column aborts with its KeyError and no frame is produced. -/
def applySteps (mask : List Bool) : List (String × ℚ) → DFrame → Except String DFrame
  | [], df => Except.ok df
  | (c, k) :: rest, df =>
      match getCol df c with
      | Except.error e => Except.error e
      | Except.ok col => applySteps mask rest (setCol df c (reflectCol k mask col))

/-- utils.py lines 106-123 at column level: copy, read `play_direction` to
build the mask, then the nine masked reflections.  The copy makes the input
frame untouched whatever happens. -/
def invertDirectionDF (df : DFrame) : Except String DFrame :=
  match getCol df "play_direction" with
  | Except.error e => Except.error e
  | Except.ok pd => applySteps (pd.map isLeftVal) reflectSteps df

/-- The columns `invert_direction` requires (spec §4.1). -/
def requiredCols : List String :=
  "play_direction" :: reflectSteps.map Prod.fst

theorem getCol_error_of_not_mem {df : DFrame} {c : String} (h : c ∉ colNames df) :
    getCol df c = Except.error c := by
  have hfind : df.find? (fun p => p.1 == c) = none := by
    rw [List.find?_eq_none]
    intro x hx hbeq
    rw [beq_iff_eq] at hbeq
    exact h (hbeq ▸ List.mem_map_of_mem Prod.fst hx)
  unfold getCol
  rw [hfind]

theorem getCol_ok_of_mem {df : DFrame} {c : String} (h : c ∈ colNames df) :
    ∃ col, getCol df c = Except.ok col := by
  obtain ⟨x, hx, hx1⟩ := List.mem_map.mp h
  have hsome : (df.find? (fun p => p.1 == c)).isSome :=
    List.find?_isSome.mpr ⟨x, hx, beq_iff_eq.mpr hx1⟩
  unfold getCol
  cases hfind : df.find? (fun p => p.1 == c) with
  | none => rw [hfind] at hsome; simp at hsome
  | some p => exact ⟨p.2, rfl⟩

theorem colNames_setCol (df : DFrame) (c : String) (col : Col) :
    colNames (setCol df c col) = colNames df := by
  unfold colNames setCol
  rw [List.map_map]
  apply List.map_congr_left
  intro p _
  simp only [Function.comp_apply]
  split <;> rfl

theorem applySteps_missing (mask : List Bool) :
    ∀ (steps : List (String × ℚ)) (df : DFrame),
      (∃ c ∈ steps.map Prod.fst, c ∉ colNames df) →
        ∃ c, applySteps mask steps df = Except.error c ∧
          c ∈ steps.map Prod.fst ∧ c ∉ colNames df := by
  intro steps
  induction steps with
  | nil => intro df h; simp at h
  | cons step rest ih =>
      intro df h
      obtain ⟨cname, k⟩ := step
      obtain ⟨c₀, hc₀mem, hc₀not⟩ := h
      by_cases hhead : cname ∈ colNames df
      · obtain ⟨col, hcol⟩ := getCol_ok_of_mem hhead
        have hc₀rest : c₀ ∈ rest.map Prod.fst := by
          simp only [List.map_cons, List.mem_cons] at hc₀mem
          rcases hc₀mem with rfl | hc₀mem
          · exact absurd hhead hc₀not
          · exact hc₀mem
        obtain ⟨c, hc, hcmem, hcnot⟩ :=
          ih (setCol df cname (reflectCol k mask col))
            ⟨c₀, hc₀rest, by rwa [colNames_setCol]⟩
        refine ⟨c, ?_, ?_, ?_⟩
        · simp only [applySteps, hcol]
          exact hc
        · simp only [List.map_cons, List.mem_cons]
          exact Or.inr hcmem
        · rwa [colNames_setCol] at hcnot
      · refine ⟨cname, ?_, ?_, hhead⟩
        · simp only [applySteps, getCol_error_of_not_mem hhead]
        · simp

/-- C9: a frame missing any required column makes invert_direction abort with
a KeyError naming a missing required column; no output frame is produced, and
(the model being value-pure, via `df.copy()` in the source) the caller's
input frame is untouched. -/
theorem invert_direction_missing_column (df : DFrame)
    (h : ∃ c ∈ requiredCols, c ∉ colNames df) :
    ∃ c, invertDirectionDF df = Except.error c ∧ c ∈ requiredCols ∧ c ∉ colNames df := by
  obtain ⟨c₀, hmem, hnot⟩ := h
  by_cases hpd : "play_direction" ∈ colNames df
  · obtain ⟨pd, hpdcol⟩ := getCol_ok_of_mem hpd
    have hc₀ : c₀ ∈ reflectSteps.map Prod.fst := by
      rcases List.mem_cons.mp hmem with rfl | hrest
      · exact absurd hpd hnot
      · exact hrest
    obtain ⟨c, hc, hcmem, hcnot⟩ :=
      applySteps_missing (pd.map isLeftVal) reflectSteps df ⟨c₀, hc₀, hnot⟩
    refine ⟨c, ?_, List.mem_cons.mpr (Or.inr hcmem), hcnot⟩
    simp only [invertDirectionDF, hpdcol]
    exact hc
  · refine ⟨"play_direction", ?_, List.mem_cons.mpr (Or.inl rfl), hpd⟩
    simp only [invertDirectionDF, getCol_error_of_not_mem hpd]

/-- A one-column frame holding only `play_direction`. -/
def dfMissing : DFrame := [("play_direction", [Val.str "left"])]

/-- C9 witness: on a frame with only `play_direction`, invert_direction
aborts with a KeyError naming a missing required column. -/
theorem invert_direction_missing_column_witness :
    ∃ c, invertDirectionDF dfMissing = Except.error c ∧
      c ∈ requiredCols ∧ c ∉ colNames dfMissing :=
  invert_direction_missing_column dfMissing
    ⟨"x_input", by decide, by decide⟩

end BDB
